import Mathlib

/-!
Verification development for a small content-addressed object store
(a minimal git implementation in Rust, files `src/main.rs` and
`src/object_storage.rs`).

Modelling conventions used throughout:

* Bytes are modelled as `Nat` values (0..255); a Rust `Vec<u8>` or `&[u8]`
  becomes `List Nat`.  A Rust `String` is modelled by the list of its UTF-8
  bytes, together with the predicate `validUtf8` where the Rust type system
  guarantees validity.
* Zlib compression is modelled away: `GitObject.from_data` is defined on the
  already-decompressed byte stream (compress-then-decompress is the
  identity, and every claim speaks about the decompressed bytes).
* Filesystem effects are made explicit: directory trees are the inductive
  `FsNode`, the store is a lookup function `List Nat → Except GitError
  GitObject`, and checkout / init return the list of filesystem actions or
  the updated filesystem state instead of performing I/O.
* Recursion through the object graph (checkout) and through directory trees
  (write_tree) is not structurally terminating in the source; those two
  functions take an explicit fuel argument, with `GitError.outOfFuel` as the
  (unreachable in real executions) fuel-exhaustion marker.
* Rust panics (`todo!()`, `unwrap()` on `None`, index underflow) are
  modelled as `GitError.panicked`.
-/

set_option maxRecDepth 20000

deriving instance DecidableEq for Except

namespace Git

/-- UTF-8 byte list of an ASCII string literal (all literals used here are
ASCII, where code points coincide with bytes). -/
def bytesOf (s : String) : List Nat := s.data.map Char.toNat

/-- Whether a byte is a UTF-8 continuation byte (0x80-0xBF). -/
def isContB (b : Nat) : Bool := decide (128 ≤ b ∧ b ≤ 191)

/-- State machine for strict UTF-8 validation.  The state `(k, lo, hi)`
means `k` continuation bytes are still expected, the next one bounded by
`lo..hi` (after the first continuation byte the bounds are always
`128..191`).  The lead-byte dispatch implements the RFC 3629 table, which
is what Rust's `String::from_utf8` enforces (overlong encodings,
surrogates and values above U+10FFFF are rejected). -/
def vUtf8St : Nat × Nat × Nat → List Nat → Bool
  | (0, _, _), [] => true
  | (_ + 1, _, _), [] => false
  | (0, _, _), b :: rest =>
    if b ≤ 127 then vUtf8St (0, 0, 0) rest
    else if 194 ≤ b ∧ b ≤ 223 then vUtf8St (1, 128, 191) rest
    else if b = 224 then vUtf8St (2, 160, 191) rest
    else if 225 ≤ b ∧ b ≤ 236 then vUtf8St (2, 128, 191) rest
    else if b = 237 then vUtf8St (2, 128, 159) rest
    else if 238 ≤ b ∧ b ≤ 239 then vUtf8St (2, 128, 191) rest
    else if b = 240 then vUtf8St (3, 144, 191) rest
    else if 241 ≤ b ∧ b ≤ 243 then vUtf8St (3, 128, 191) rest
    else if b = 244 then vUtf8St (3, 128, 143) rest
    else false
  | (k + 1, lo, hi), c :: rest =>
    if lo ≤ c ∧ c ≤ hi then vUtf8St (k, 128, 191) rest else false

/-- Strict UTF-8 validity of a byte sequence, mirroring Rust's
`String::from_utf8`. -/
def validUtf8 (l : List Nat) : Bool := vUtf8St (0, 0, 0) l

/-- Error outcomes of the embedded operations.  The Rust code surfaces all of
these through `anyhow::Error`; the constructors record which failure site
produced the error (the spec's taxonomy names for them are noted). -/
inductive GitError where
  /-- Underlying I/O failure (`FilesystemError` / short read in `read_exact`). -/
  | ioError
  /-- `String::from_utf8` / `read_line` rejected invalid UTF-8. -/
  | utf8Error
  /-- Unknown header tag (`UnsupportedObjectType`). -/
  | unsupportedObjectType
  /-- Unknown tree-entry mode string (`UnsupportedPermission`). -/
  | unsupportedPermission
  /-- Malformed hex hash (`InvalidHashEncoding`). -/
  | invalidHex
  /-- A Rust panic: `todo!()` or `unwrap()` on `None`. -/
  | panicked
  /-- `fs::create_dir` on an existing path (`AlreadyInitialized`). -/
  | alreadyExists
  /-- Fuel exhaustion: modelling artifact for non-structural recursion. -/
  | outOfFuel
  deriving DecidableEq, Repr

/-- Tree entry modes, from `enum TreeEntryPermission`. -/
inductive TreeEntryPermission where
  | Directory
  | RegularFile
  | SymbolicLink
  | Executable
  deriving DecidableEq, Repr

/-- A single tree entry, from `struct TreeEntry` (the name is kept as its
byte list). -/
structure TreeEntry where
  permission : TreeEntryPermission
  name : List Nat
  hash : List Nat
  deriving DecidableEq, Repr

/-- A tree object, from `struct Tree`. -/
structure Tree where
  entries : List TreeEntry
  deriving DecidableEq, Repr

/-- A blob object, from `struct Blob`. -/
structure Blob where
  content : List Nat
  deriving DecidableEq, Repr

/-- A commit object, from `struct Commit` (`tree : Sha`,
`parents : Vec<Sha>`, `message : String` as UTF-8 bytes). -/
structure Commit where
  tree : List Nat
  parents : List (List Nat)
  message : List Nat
  deriving DecidableEq, Repr

/-- The object sum type, from `enum GitObject`. -/
inductive GitObject where
  | blob (b : Blob)
  | tree (t : Tree)
  | commit (c : Commit)
  deriving DecidableEq, Repr

/-- The invariant of the Rust type `Sha = [u8; 20]`: twenty bytes. -/
def ValidSha (s : List Nat) : Prop := s.length = 20 ∧ ∀ b ∈ s, b < 256

instance : DecidablePred ValidSha := fun s =>
  inferInstanceAs (Decidable (s.length = 20 ∧ ∀ b ∈ s, b < 256))

/-- Lowercase hex digit byte for a value 0..15, as in
`base16ct::lower::encode_string`. -/
def hexDigitByte (n : Nat) : Nat := if n < 10 then 48 + n else 87 + n

/-- `ObjectStorage::sha_to_hex_string`: lowercase hex bytes of a byte list. -/
def shaToHex : List Nat → List Nat
  | [] => []
  | b :: rest => hexDigitByte (b / 16) :: hexDigitByte (b % 16) :: shaToHex rest

/-- Value of one hex digit byte, accepting both cases as
`base16ct::mixed::decode` does. -/
def hexCharVal (c : Nat) : Option Nat :=
  if 48 ≤ c ∧ c ≤ 57 then some (c - 48)
  else if 97 ≤ c ∧ c ≤ 102 then some (c - 87)
  else if 65 ≤ c ∧ c ≤ 70 then some (c - 55)
  else none

/-- Pairs of hex digit bytes decoded to bytes; `none` on odd length or a
non-hex byte. -/
def hexPairs : List Nat → Option (List Nat)
  | [] => some []
  | [_] => none
  | a :: b :: rest =>
    match hexCharVal a, hexCharVal b, hexPairs rest with
    | some x, some y, some r => some ((16 * x + y) :: r)
    | _, _, _ => none

/-- `ObjectStorage::hex_string_to_sha`: decode a hex string into a 20-byte
hash; any length or digit mismatch is an error. -/
def ObjectStorage.hex_string_to_sha (l : List Nat) : Except GitError (List Nat) :=
  match hexPairs l with
  | some r => if r.length = 20 then .ok r else .error .invalidHex
  | none => .error .invalidHex

/-- Whether a byte is ASCII whitespace in the sense of Rust's `str::trim`
(restricted to the ASCII range; all trimming in this development happens on
ASCII data). -/
def isWsByte (b : Nat) : Bool := decide (b = 32 ∨ (9 ≤ b ∧ b ≤ 13))

/-- Byte-level model of `str::trim`. -/
def trimBytes (l : List Nat) : List Nat :=
  ((l.dropWhile isWsByte).reverse.dropWhile isWsByte).reverse

/-- Decimal digits of a natural number (most significant first), with a fuel
argument so that the definition is structural; `decimalBytes` always supplies
enough fuel. -/
def decimalDigitsCore : Nat → Nat → List Nat
  | 0, _ => []
  | fuel + 1, n => if n < 10 then [n] else decimalDigitsCore fuel (n / 10) ++ [n % 10]

/-- ASCII decimal rendering of a natural number, as `format` produces. -/
def decimalBytes (n : Nat) : List Nat := (decimalDigitsCore (n + 1) n).map (fun d => d + 48)

/-- `ObjectStorage::header_for_content_length`: the canonical object header
`"<type> <len>\0"`. -/
def ObjectStorage.header_for_content_length (ty : String) (len : Nat) : List Nat :=
  bytesOf ty ++ 32 :: (decimalBytes len ++ [0])

/-- The encoded byte stream built by `Blob::write_to_object_storage`
(header plus raw content), before compression. -/
def Blob.encodeFull (b : Blob) : List Nat :=
  ObjectStorage.header_for_content_length "blob" b.content.length ++ b.content

/-- `TreeEntryPermission::to_string_repr`, as bytes. -/
def TreeEntryPermission.to_string_repr : TreeEntryPermission → List Nat
  | .Directory => bytesOf "40000"
  | .RegularFile => bytesOf "100644"
  | .SymbolicLink => bytesOf "120000"
  | .Executable => bytesOf "100755"

/-- One entry of a tree payload as written by `Tree::write_to_object_storage`:
mode, space, name, null, then the twenty raw hash bytes. -/
def treeEntryBytes (e : TreeEntry) : List Nat :=
  e.permission.to_string_repr ++ 32 :: (e.name ++ 0 :: e.hash)

/-- The tree payload: concatenated entries in their stored order. -/
def Tree.payloadBytes (t : Tree) : List Nat :=
  t.entries.foldr (fun e acc => treeEntryBytes e ++ acc) []

/-- The encoded byte stream built by `Tree::write_to_object_storage`, before
compression. -/
def Tree.encodeFull (t : Tree) : List Nat :=
  ObjectStorage.header_for_content_length "tree" t.payloadBytes.length ++ t.payloadBytes

/-- The hard-coded author line written by `Commit::write_to_object_storage`
(`format "author {} <{}> {} +{:04}\n"` applied to the fixed name, email,
timestamp 0 and offset 0). -/
def authorLineBytes : List Nat :=
  bytesOf "author Ruben Bakker <ruben@uncomplex.ch> 0 +0000\n"

/-- The hard-coded committer line written by
`Commit::write_to_object_storage`. -/
def committerLineBytes : List Nat :=
  bytesOf "committer Ruben Bakker <ruben@uncomplex.ch> 0 +0000\n"

/-- The `"parent <hex>\n"` lines, one per parent in order. -/
def parentLinesBytes : List (List Nat) → List Nat
  | [] => []
  | p :: ps => bytesOf "parent " ++ (shaToHex p ++ 10 :: parentLinesBytes ps)

/-- The commit payload built by `Commit::write_to_object_storage`: tree line,
parent lines, author line, committer line, blank line, message, trailing
newline. -/
def Commit.encodePayload (c : Commit) : List Nat :=
  bytesOf "tree " ++ (shaToHex c.tree ++ 10 ::
    (parentLinesBytes c.parents ++ (authorLineBytes ++ (committerLineBytes ++
      10 :: (c.message ++ [10])))))

/-- `ObjectStorage::commit_tree`: builds the `Commit` value from a tree hash,
a single parent hash and a message (the author and timestamp are not
parameters; `write_to_object_storage` hard-codes them). -/
def ObjectStorage.commit_tree (tree_sha parent_sha message : List Nat) : Commit :=
  ⟨tree_sha, [parent_sha], message⟩

/-- `BufRead::skip_until(0)` as used in `GitObject::from_data`: drop bytes up
to and including the first null; if there is none, everything is consumed. -/
def dropThroughNull : List Nat → List Nat
  | [] => []
  | b :: rest => if b = 0 then rest else dropThroughNull rest

/-- `BufRead::read_until(d)`: the consumed bytes (up to and including the
delimiter, or all of the input when the delimiter is absent) and the rest. -/
def readUntilByte (d : Nat) : List Nat → List Nat × List Nat
  | [] => ([], [])
  | b :: rest =>
    if b = d then ([b], rest)
    else
      let pr := readUntilByte d rest
      (b :: pr.1, pr.2)

/-- `BufRead::read_line`: the line (up to and including the newline byte, or
all remaining bytes) and the rest. -/
def readLineBytes : List Nat → List Nat × List Nat
  | [] => ([], [])
  | b :: rest =>
    if b = 10 then ([10], rest)
    else
      let pr := readLineBytes rest
      (b :: pr.1, pr.2)

/-- `str::split_once(" ")`: the part before the first space and the part
after it, or `none` when the input has no space. -/
def splitOnceSpace : List Nat → Option (List Nat × List Nat)
  | [] => none
  | b :: rest =>
    if b = 32 then some ([], rest)
    else
      match splitOnceSpace rest with
      | none => none
      | some (p, q) => some (b :: p, q)

theorem readUntilByte_append_eq (d : Nat) :
    ∀ l : List Nat, (readUntilByte d l).1 ++ (readUntilByte d l).2 = l := by
  intro l
  induction l with
  | nil => simp [readUntilByte]
  | cons b rest ih =>
    by_cases h : b = d <;> simp [readUntilByte, h, ih]

theorem readUntilByte_snd_le (d : Nat) (l : List Nat) :
    (readUntilByte d l).2.length ≤ l.length := by
  conv_rhs => rw [← readUntilByte_append_eq d l]
  simp

theorem readLineBytes_snd_lt (b : Nat) (bs : List Nat) :
    (readLineBytes (b :: bs)).2.length < (b :: bs).length := by
  induction bs generalizing b with
  | nil => by_cases h : b = 10 <;> simp [readLineBytes, h]
  | cons c cs ih =>
    by_cases h : b = 10
    · simp [readLineBytes, h]
    · have := ih c
      simp only [readLineBytes, if_neg h]
      simpa using Nat.lt_trans this (Nat.lt_succ_self _)

/-- The mode-string dispatch of `Tree::from` (the `match` on the trimmed
permission string). -/
def permOfModeString (s : List Nat) : Except GitError TreeEntryPermission :=
  if s = bytesOf "100644" then .ok .RegularFile
  else if s = bytesOf "40000" then .ok .Directory
  else if s = bytesOf "100755" then .ok .Executable
  else if s = bytesOf "120000" then .ok .SymbolicLink
  else .error .unsupportedPermission

/-- The entry-reading loop of `Tree::from`: read the mode up to a space (end
of input stops the loop), the name up to a null, then exactly twenty raw
hash bytes; the name string drops its final byte (`name.get(0..len-1)`),
panicking on an empty buffer or a non-boundary split. -/
def Tree.fromLoop (l : List Nat) (acc : List TreeEntry) : Except GitError (List TreeEntry) :=
  let pr := readUntilByte 32 l
  if h1 : pr.1 = [] then .ok acc
  else if validUtf8 pr.1 then
    let nr := readUntilByte 0 pr.2
    if validUtf8 nr.1 then
      if h2 : nr.1 = [] then .error .panicked
      else if isContB (nr.1.getLast h2) then .error .panicked
      else
        match permOfModeString (trimBytes pr.1) with
        | .error e => .error e
        | .ok perm =>
          if nr.2.length < 20 then .error .ioError
          else Tree.fromLoop (nr.2.drop 20) (acc ++ [⟨perm, nr.1.dropLast, nr.2.take 20⟩])
    else .error .utf8Error
  else .error .utf8Error
termination_by l.length
decreasing_by
  have hsplit := readUntilByte_append_eq 32 l
  have h2le := readUntilByte_snd_le 0 (readUntilByte 32 l).2
  have hlen : (readUntilByte 32 l).1.length + (readUntilByte 32 l).2.length = l.length := by
    have := congrArg List.length hsplit
    simpa using this
  have hpos : 0 < (readUntilByte 32 l).1.length := List.length_pos.mpr h1
  have : (readUntilByte 0 (readUntilByte 32 l).2).2.length < l.length := by omega
  calc ((readUntilByte 0 (readUntilByte 32 l).2).2.drop 20).length
      ≤ (readUntilByte 0 (readUntilByte 32 l).2).2.length := by simp
    _ < l.length := this

/-- `Tree::from`: run the entry loop on the payload. -/
def Tree.fromContent (content : List Nat) : Except GitError Tree :=
  match Tree.fromLoop content [] with
  | .ok entries => .ok ⟨entries⟩
  | .error e => .error e

/-- The header-line loop of `Commit::from`: read a line, stop when it has no
space, otherwise dispatch on the word before the first space ("tree" sets
the tree hash, "parent" appends to the parents, anything else is ignored).
After the loop the remaining bytes are the message (`tree.unwrap()` panics
when no tree line was seen). -/
def Commit.fromLoop (l : List Nat) (tr : Option (List Nat)) (parents : List (List Nat)) :
    Except GitError Commit :=
  if validUtf8 (readLineBytes l).1 then
    match h : splitOnceSpace (readLineBytes l).1 with
    | none =>
      if validUtf8 (readLineBytes l).2 then
        tr.elim (.error .panicked) (fun t => .ok ⟨t, parents, (readLineBytes l).2⟩)
      else .error .utf8Error
    | some (pre, post) =>
      if pre = bytesOf "tree" then
        match ObjectStorage.hex_string_to_sha (trimBytes post) with
        | .ok s => Commit.fromLoop (readLineBytes l).2 (some s) parents
        | .error e => .error e
      else if pre = bytesOf "parent" then
        match ObjectStorage.hex_string_to_sha (trimBytes post) with
        | .ok s => Commit.fromLoop (readLineBytes l).2 tr (parents ++ [s])
        | .error e => .error e
      else Commit.fromLoop (readLineBytes l).2 tr parents
  else .error .utf8Error
termination_by l.length
decreasing_by
  all_goals
    cases l with
    | nil => simp [readLineBytes, splitOnceSpace] at h
    | cons b bs => exact readLineBytes_snd_lt b bs

/-- `Commit::from`: run the line loop with no tree hash and no parents. -/
def Commit.fromContent (content : List Nat) : Except GitError Commit :=
  Commit.fromLoop content none []

/-- `GitObject::from_data` on the decompressed byte stream: read exactly four
bytes as the type tag, skip through the first null byte, and dispatch on the
tag ("blob", "tree", or "comm"); any other four-byte tag is rejected. -/
def GitObject.from_data (decompressed : List Nat) : Except GitError GitObject :=
  if decompressed.length < 4 then .error .ioError
  else
    let tag := decompressed.take 4
    if validUtf8 tag then
      let content := dropThroughNull (decompressed.drop 4)
      if tag = bytesOf "blob" then .ok (.blob ⟨content⟩)
      else if tag = bytesOf "tree" then
        match Tree.fromContent content with
        | .ok t => .ok (.tree t)
        | .error e => .error e
      else if tag = bytesOf "comm" then
        match Commit.fromContent content with
        | .ok c => .ok (.commit c)
        | .error e => .error e
      else .error .unsupportedObjectType
    else .error .utf8Error

/-- A filesystem action performed by checkout, recorded instead of executed.
Paths are lists of name components relative to the checkout root. -/
inductive FsAction where
  | mkdir (path : List (List Nat))
  | writeFile (path : List (List Nat)) (content : List Nat)
  deriving DecidableEq, Repr

/-- `ObjectStorage::checkout_sha`, with the store abstracted as a lookup
function (`git_object_from_sha`) and filesystem effects returned as a list
of actions.  Directory entries create the directory and recurse;
RegularFile entries recurse (the blob case writes the file); the
SymbolicLink and Executable arms are `todo!()` in the source, i.e. a panic;
a Commit object yields `Ok(())` without any action. -/
def ObjectStorage.checkout_sha (store : List Nat → Except GitError GitObject) :
    Nat → List (List Nat) → List Nat → Except GitError (List FsAction)
  | 0, _, _ => .error .outOfFuel
  | fuel + 1, path, sha =>
    match store sha with
    | .error e => .error e
    | .ok (.tree t) =>
      t.entries.foldlM (fun acc e =>
        match e.permission with
        | .Directory =>
          match ObjectStorage.checkout_sha store fuel (path ++ [e.name]) e.hash with
          | .ok acts => .ok (acc ++ FsAction.mkdir (path ++ [e.name]) :: acts)
          | .error err => .error err
        | .RegularFile =>
          match ObjectStorage.checkout_sha store fuel (path ++ [e.name]) e.hash with
          | .ok acts => .ok (acc ++ acts)
          | .error err => .error err
        | .SymbolicLink => .error .panicked
        | .Executable => .error .panicked) []
    | .ok (.blob b) => .ok [FsAction.writeFile path b.content]
    | .ok (.commit _) => .ok []

/-- A filesystem subtree as seen by `write_tree`.  A symlink node carries its
target path text and, separately, the content obtained by opening the link
(i.e. the resolved target's bytes, `none` when the link is dangling),
because `File::open` follows symlinks. -/
inductive FsNode where
  | file (executable : Bool) (content : List Nat)
  | symlink (target : List Nat) (resolved : Option (List Nat))
  | dir (children : List (List Nat × FsNode))

/-- Byte-lexicographic comparison of names, as `a.name.cmp(&b.name)`. -/
def nameLeB : List Nat → List Nat → Bool
  | [], _ => true
  | _ :: _, [] => false
  | a :: as_, b :: bs =>
    if a < b then true
    else if b < a then false
    else nameLeB as_ bs

/-- Insertion step of the by-name sort. -/
def insertByName (e : TreeEntry) : List TreeEntry → List TreeEntry
  | [] => [e]
  | x :: xs => if nameLeB e.name x.name then e :: x :: xs else x :: insertByName e xs

/-- The `sort_by(|a, b| a.name.cmp(&b.name))` call in `write_tree`, modelled
as an insertion sort. -/
def sortByName : List TreeEntry → List TreeEntry
  | [] => []
  | x :: xs => insertByName x (sortByName xs)

/-- The per-child step of the `write_tree` loop (`recurse` is the recursive
call on a subdirectory): children named `.git` are skipped; a directory
child recurses and is recorded as a Directory-mode entry under the returned
hash; every other child is read as a blob — `File::open` follows symlinks,
so a symlink child contributes its resolved target content (a dangling link
is an I/O error) — written to the store, and recorded as a
RegularFile-mode entry. -/
def ObjectStorage.writeTreeChild (H : List Nat → List Nat)
    (recurse : FsNode → Except GitError (List TreeEntry × List Nat × List (List Nat)))
    (acc : List TreeEntry × List (List Nat)) (child : List Nat × FsNode) :
    Except GitError (List TreeEntry × List (List Nat)) :=
  if child.1 = bytesOf ".git" then .ok acc
  else
    match child.2 with
    | .dir cs =>
      match recurse (.dir cs) with
      | .error e => .error e
      | .ok (_, h, w) =>
        .ok (acc.1 ++ [⟨.Directory, child.1, h⟩], acc.2 ++ w)
    | .file _ content =>
      .ok (acc.1 ++ [⟨.RegularFile, child.1, H (Blob.encodeFull ⟨content⟩)⟩],
        acc.2 ++ [Blob.encodeFull ⟨content⟩])
    | .symlink _ none => .error .ioError
    | .symlink _ (some content) =>
      .ok (acc.1 ++ [⟨.RegularFile, child.1, H (Blob.encodeFull ⟨content⟩)⟩],
        acc.2 ++ [Blob.encodeFull ⟨content⟩])

/-- `ObjectStorage::write_tree`, with the SHA-1 digest abstracted as `H` and
store writes returned as the list of encoded objects, in write order.
Entries are collected child by child, sorted by name, then the tree object
is encoded and written.  Returns (sorted entries, tree hash, writes). -/
def ObjectStorage.write_tree (H : List Nat → List Nat) :
    Nat → FsNode → Except GitError (List TreeEntry × List Nat × List (List Nat))
  | 0, _ => .error .outOfFuel
  | _ + 1, .file _ _ => .error .ioError
  | _ + 1, .symlink _ _ => .error .ioError
  | fuel + 1, .dir children =>
    match (children.foldlM
        (ObjectStorage.writeTreeChild H (fun n => ObjectStorage.write_tree H fuel n))
        ([], []) :
        Except GitError (List TreeEntry × List (List Nat))) with
    | .error e => .error e
    | .ok (entries, writes) =>
      .ok (sortByName entries, H (Tree.encodeFull ⟨sortByName entries⟩),
        writes ++ [Tree.encodeFull ⟨sortByName entries⟩])

/-- Filesystem state for `init`: the set of existing directory paths and the
files with their contents (paths as the literal relative path strings). -/
structure FsState where
  dirs : List (List Nat)
  files : List (List Nat × List Nat)
  deriving DecidableEq, Repr

/-- `fs::create_dir`: fails when the path already exists. -/
def FsState.createDir (s : FsState) (p : List Nat) : Except GitError FsState :=
  if p ∈ s.dirs then .error .alreadyExists else .ok ⟨s.dirs ++ [p], s.files⟩

/-- Association-list update used by `fs::write` (create or overwrite). -/
def setFile : List (List Nat × List Nat) → List Nat → List Nat → List (List Nat × List Nat)
  | [], p, c => [(p, c)]
  | (q, d) :: rest, p, c => if q = p then (p, c) :: rest else (q, d) :: setFile rest p c

/-- `fs::write`. -/
def FsState.writeF (s : FsState) (p c : List Nat) : FsState :=
  ⟨s.dirs, setFile s.files p c⟩

/-- `ObjectStorage::init_cwd`: create `.git`, `.git/objects`, `.git/refs`,
then write `HEAD`; the first failing step aborts and returns the state as it
was at that point. -/
def ObjectStorage.init_cwd (s : FsState) : Except GitError Unit × FsState :=
  match s.createDir (bytesOf ".git") with
  | .error e => (.error e, s)
  | .ok s1 =>
    match s1.createDir (bytesOf ".git/objects") with
    | .error e => (.error e, s1)
    | .ok s2 =>
      match s2.createDir (bytesOf ".git/refs") with
      | .error e => (.error e, s2)
      | .ok s3 =>
        (.ok (), s3.writeF (bytesOf ".git/HEAD") (bytesOf "ref: refs/heads/main\n"))

/-- Modelled from the spec (section 4.1 commit payload and section 3
CommitAuthor/CommitTimestamp): the author line the specification prescribes,
rendering a caller-supplied name, email, epoch seconds and zero-padded
four-digit timezone.  Used only to compare the specified rendering with the
code's hard-coded one. -/
def specAuthorLine (name email : List Nat) (seconds tz : Nat) : List Nat :=
  bytesOf "author " ++ name ++ bytesOf " <" ++ email ++ bytesOf "> " ++
    decimalBytes seconds ++ bytesOf " +" ++
    (List.replicate (4 - (decimalBytes tz).length) 48 ++ decimalBytes tz) ++ [10]

/-- Modelled from the spec (section 4.4 `commit` and section 4.1 commit
payload): the payload of a commit built from a tree hash, a parent list of
any length, a message, an author and a timestamp. -/
def specCommitPayload (tree : List Nat) (parents : List (List Nat))
    (message name email : List Nat) (seconds tz : Nat) : List Nat :=
  bytesOf "tree " ++ (shaToHex tree ++ 10 ::
    (parentLinesBytes parents ++ (specAuthorLine name email seconds tz ++
      (bytesOf "committer " ++ name ++ bytesOf " <" ++ email ++ bytesOf "> " ++
        decimalBytes seconds ++ bytesOf " +" ++
        (List.replicate (4 - (decimalBytes tz).length) 48 ++ decimalBytes tz) ++ [10]) ++
      10 :: (message ++ [10]))))

/-- Store used by the checkout counterexamples: a tree whose single entry is
a Directory pointing at a commit object. -/
def storeDirToCommit : List Nat → Except GitError GitObject := fun sha =>
  if sha = List.replicate 20 2 then
    .ok (.tree ⟨[⟨.Directory, bytesOf "d", List.replicate 20 3⟩]⟩)
  else if sha = List.replicate 20 3 then
    .ok (.commit ⟨List.replicate 20 9, [], []⟩)
  else .error .ioError

/-- Store used for the incomplete-checkout theorem: two trees, one with an
Executable entry and one with a SymbolicLink entry, plus the blob they
reference. -/
def storeSpecialModes : List Nat → Except GitError GitObject := fun sha =>
  if sha = List.replicate 20 2 then
    .ok (.tree ⟨[⟨.Executable, bytesOf "x", List.replicate 20 1⟩]⟩)
  else if sha = List.replicate 20 4 then
    .ok (.tree ⟨[⟨.SymbolicLink, bytesOf "s", List.replicate 20 1⟩]⟩)
  else if sha = List.replicate 20 1 then
    .ok (.blob ⟨bytesOf "hello"⟩)
  else .error .ioError

/-! ### Basic lemmas about the byte-level helpers -/

theorem validUtf8_of_ascii : ∀ l : List Nat, (∀ b ∈ l, b ≤ 127) → validUtf8 l = true := by
  intro l
  induction l with
  | nil => intro _; rfl
  | cons b rest ih =>
    intro h
    have hb : b ≤ 127 := h b (by simp)
    simp only [validUtf8, vUtf8St, if_pos hb]
    exact ih fun x hx => h x (by simp [hx])

theorem vUtf8St_zero_state (lo hi : Nat) :
    ∀ bs : List Nat, vUtf8St (0, lo, hi) bs = vUtf8St (0, 0, 0) bs := by
  intro bs
  cases bs with
  | nil => rfl
  | cons b rest => rfl

set_option maxHeartbeats 2000000 in
theorem vUtf8St_append : ∀ (a : List Nat) (st : Nat × Nat × Nat) (bs : List Nat),
    vUtf8St st a = true → vUtf8St (0, 0, 0) bs = true → vUtf8St st (a ++ bs) = true := by
  intro a
  induction a with
  | nil =>
    intro st bs ha hb
    obtain ⟨k, lo, hi⟩ := st
    cases k with
    | zero => simpa [vUtf8St_zero_state] using hb
    | succ k => simp [vUtf8St] at ha
  | cons x rest ih =>
    intro st bs ha hb
    obtain ⟨k, lo, hi⟩ := st
    cases k with
    | zero =>
      simp only [List.cons_append, vUtf8St] at ha ⊢
      split_ifs at ha ⊢ <;> first | exact ih _ bs ha hb | exact ha
    | succ k =>
      simp only [List.cons_append, vUtf8St] at ha ⊢
      split_ifs at ha ⊢ <;> first | exact ih _ bs ha hb | exact ha

theorem validUtf8_append {a bs : List Nat}
    (ha : validUtf8 a = true) (hb : validUtf8 bs = true) : validUtf8 (a ++ bs) = true :=
  vUtf8St_append a _ bs ha hb

theorem dropThroughNull_append : ∀ xs p : List Nat,
    (∀ b ∈ xs, b ≠ 0) → dropThroughNull (xs ++ 0 :: p) = p := by
  intro xs
  induction xs with
  | nil => intro p _; simp [dropThroughNull]
  | cons b rest ih =>
    intro p h
    have hb : b ≠ 0 := h b (by simp)
    simp only [List.cons_append, dropThroughNull, if_neg hb]
    exact ih p fun x hx => h x (by simp [hx])

theorem decimalDigitsCore_lt_ten :
    ∀ fuel n d, d ∈ decimalDigitsCore fuel n → d < 10 := by
  intro fuel
  induction fuel with
  | zero => intro n d h; simp [decimalDigitsCore] at h
  | succ fuel ih =>
    intro n d h
    by_cases hn : n < 10
    · simp [decimalDigitsCore, hn] at h
      omega
    · simp [decimalDigitsCore, hn] at h
      rcases h with h | h
      · exact ih _ _ h
      · omega

theorem decimalBytes_mem {n b : Nat} (h : b ∈ decimalBytes n) : 48 ≤ b ∧ b ≤ 57 := by
  simp only [decimalBytes, List.mem_map] at h
  obtain ⟨d, hd, rfl⟩ := h
  have := decimalDigitsCore_lt_ten _ _ _ hd
  omega

theorem bytesOf_blob_length : (bytesOf "blob").length = 4 := by decide

/-- Core of blob decoding in `GitObject::from_data`: anything between the
four-byte tag and the first null byte is skipped without inspection, and
the bytes after that null become the blob content verbatim. -/
theorem from_data_blob_core (junk p : List Nat) (hj : ∀ b ∈ junk, b ≠ 0) :
    GitObject.from_data (bytesOf "blob" ++ (junk ++ 0 :: p)) = .ok (.blob ⟨p⟩) := by
  have htake : (bytesOf "blob" ++ (junk ++ 0 :: p)).take 4 = bytesOf "blob" := by
    have := List.take_left (bytesOf "blob") (junk ++ 0 :: p)
    rwa [bytesOf_blob_length] at this
  have hdrop : (bytesOf "blob" ++ (junk ++ 0 :: p)).drop 4 = junk ++ 0 :: p := by
    have := List.drop_left (bytesOf "blob") (junk ++ 0 :: p)
    rwa [bytesOf_blob_length] at this
  have hlen : ¬ (bytesOf "blob" ++ (junk ++ 0 :: p)).length < 4 := by
    simp [bytesOf_blob_length]
  simp only [GitObject.from_data, if_neg hlen, htake, hdrop]
  simp [dropThroughNull_append junk p hj]
  decide

theorem hexDigitByte_bounds {x : Nat} (h : x ≤ 15) :
    48 ≤ hexDigitByte x ∧ hexDigitByte x ≤ 102 := by
  unfold hexDigitByte
  split <;> omega

theorem hexCharVal_hexDigitByte {x : Nat} (h : x ≤ 15) :
    hexCharVal (hexDigitByte x) = some x := by
  unfold hexDigitByte hexCharVal
  split_ifs <;> first | (congr 1; omega) | omega

theorem shaToHex_length : ∀ s : List Nat, (shaToHex s).length = 2 * s.length := by
  intro s
  induction s with
  | nil => rfl
  | cons b rest ih => simp [shaToHex, ih]; omega

theorem shaToHex_mem_bounds : ∀ s : List Nat, (∀ a ∈ s, a < 256) →
    ∀ b ∈ shaToHex s, 48 ≤ b ∧ b ≤ 102 := by
  intro s
  induction s with
  | nil => intro _ b hb; simp [shaToHex] at hb
  | cons a rest ih =>
    intro hs b hb
    have ha : a < 256 := hs a (by simp)
    have hdiv : a / 16 ≤ 15 := by omega
    have hmod : a % 16 ≤ 15 := by omega
    simp only [shaToHex, List.mem_cons] at hb
    rcases hb with rfl | rfl | hb
    · exact hexDigitByte_bounds hdiv
    · exact hexDigitByte_bounds hmod
    · exact ih (fun x hx => hs x (by simp [hx])) b hb

theorem hexPairs_shaToHex : ∀ s : List Nat, (∀ a ∈ s, a < 256) →
    hexPairs (shaToHex s) = some s := by
  intro s
  induction s with
  | nil => intro _; rfl
  | cons a rest ih =>
    intro hs
    have ha : a < 256 := hs a (by simp)
    have hdiv : a / 16 ≤ 15 := by omega
    have hmod : a % 16 ≤ 15 := by omega
    have hrest := ih fun x hx => hs x (by simp [hx])
    simp only [shaToHex, hexPairs, hexCharVal_hexDigitByte hdiv,
      hexCharVal_hexDigitByte hmod, hrest]
    congr 2
    omega

theorem hex_string_to_sha_roundtrip {s : List Nat} (h : ValidSha s) :
    ObjectStorage.hex_string_to_sha (shaToHex s) = .ok s := by
  obtain ⟨hlen, hmem⟩ := h
  simp [ObjectStorage.hex_string_to_sha, hexPairs_shaToHex s hmem, hlen]

/-! ### Lemmas about line reading, splitting and trimming -/

theorem readLineBytes_append {A : List Nat} (B : List Nat) (hA : 10 ∉ A) :
    readLineBytes (A ++ 10 :: B) = (A ++ [10], B) := by
  induction A with
  | nil => simp [readLineBytes]
  | cons a rest ih =>
    have ha : a ≠ 10 := fun h => hA (by simp [h])
    have hrest : 10 ∉ rest := fun h => hA (by simp [h])
    simp [readLineBytes, ha, ih hrest]

theorem readLineBytes_newline (R : List Nat) : readLineBytes (10 :: R) = ([10], R) := by
  simp [readLineBytes]

theorem splitOnceSpace_append {P : List Nat} (Q : List Nat) (hP : 32 ∉ P) :
    splitOnceSpace (P ++ 32 :: Q) = some (P, Q) := by
  induction P with
  | nil => simp [splitOnceSpace]
  | cons a rest ih =>
    have ha : a ≠ 32 := fun h => hP (by simp [h])
    have hrest : 32 ∉ rest := fun h => hP (by simp [h])
    simp [splitOnceSpace, ha, ih hrest]

theorem splitOnceSpace_eq_none {P : List Nat} (hP : 32 ∉ P) :
    splitOnceSpace P = none := by
  induction P with
  | nil => rfl
  | cons a rest ih =>
    have ha : a ≠ 32 := fun h => hP (by simp [h])
    have hrest : 32 ∉ rest := fun h => hP (by simp [h])
    simp [splitOnceSpace, ha, ih hrest]

theorem dropWhile_of_head_false {l : List Nat} (h : ∀ b ∈ l, isWsByte b = false) :
    l.dropWhile isWsByte = l := by
  cases l with
  | nil => rfl
  | cons a rest => simp [List.dropWhile_cons, h a (by simp)]

theorem trimBytes_append_newline {l : List Nat} (hne : l ≠ [])
    (h : ∀ b ∈ l, isWsByte b = false) : trimBytes (l ++ [10]) = l := by
  have h1 : (l ++ [10]).dropWhile isWsByte = l ++ [10] := by
    cases l with
    | nil => exact absurd rfl hne
    | cons a rest => simp [List.dropWhile_cons, h a (by simp)]
  have h2 : (l ++ [10]).reverse = 10 :: l.reverse := by simp
  have h3 : (10 :: l.reverse).dropWhile isWsByte = l.reverse := by
    have hws : isWsByte 10 = true := by decide
    rw [List.dropWhile_cons, if_pos hws]
    exact dropWhile_of_head_false fun b hb => h b (by simpa using hb)
  simp only [trimBytes, h1, h2, h3, List.reverse_reverse]

theorem hex_not_ws {s : List Nat} (hs : ∀ a ∈ s, a < 256) :
    ∀ b ∈ shaToHex s, isWsByte b = false := by
  intro b hb
  have := (shaToHex_mem_bounds s hs b hb).1
  simp only [isWsByte, decide_eq_false_iff_not]
  omega

theorem hex_not_newline {s : List Nat} (hs : ∀ a ∈ s, a < 256) :
    10 ∉ shaToHex s := by
  intro h
  have := (shaToHex_mem_bounds s hs 10 h).1
  omega

theorem hex_not_space {s : List Nat} (hs : ∀ a ∈ s, a < 256) :
    32 ∉ shaToHex s := by
  intro h
  have := (shaToHex_mem_bounds s hs 32 h).1
  omega

theorem hex_ascii {s : List Nat} (hs : ∀ a ∈ s, a < 256) :
    ∀ b ∈ shaToHex s, b ≤ 127 := by
  intro b hb
  have := (shaToHex_mem_bounds s hs b hb).2
  omega

theorem shaToHex_ne_nil {s : List Nat} (h : ValidSha s) : shaToHex s ≠ [] := by
  intro hnil
  have := shaToHex_length s
  rw [hnil, h.1] at this
  simp at this

/-! ### Step lemmas for the commit header-line loop -/

theorem fromLoop_tree_line {t : List Nat} (ht : ValidSha t) (B : List Nat)
    (tr : Option (List Nat)) (ps : List (List Nat)) :
    Commit.fromLoop (bytesOf "tree " ++ (shaToHex t ++ 10 :: B)) tr ps =
      Commit.fromLoop B (some t) ps := by
  have hstream : bytesOf "tree " ++ (shaToHex t ++ 10 :: B) =
      (bytesOf "tree" ++ 32 :: shaToHex t) ++ 10 :: B := by
    have : bytesOf "tree " = bytesOf "tree" ++ [32] := by decide
    simp [this]
  have hA10 : 10 ∉ bytesOf "tree" ++ 32 :: shaToHex t := by
    intro h
    rcases List.mem_append.mp h with h | h
    · revert h; decide
    · rcases List.mem_cons.mp h with h | h
      · omega
      · exact hex_not_newline ht.2 h
  have hAv : validUtf8 ((bytesOf "tree" ++ 32 :: shaToHex t) ++ [10]) = true := by
    apply validUtf8_of_ascii
    intro b hb
    rcases List.mem_append.mp hb with h | h
    · rcases List.mem_append.mp h with h | h
      · exact (by decide : ∀ x ∈ bytesOf "tree", x ≤ 127) b h
      · rcases List.mem_cons.mp h with h | h
        · omega
        · exact hex_ascii ht.2 b h
    · simp at h; omega
  rw [hstream, Commit.fromLoop.eq_def]
  rw [readLineBytes_append B hA10]
  simp only [hAv, if_true]
  have hsplit : splitOnceSpace ((bytesOf "tree" ++ 32 :: shaToHex t) ++ [10]) =
      some (bytesOf "tree", shaToHex t ++ [10]) := by
    have h32 : 32 ∉ bytesOf "tree" := by decide
    have : (bytesOf "tree" ++ 32 :: shaToHex t) ++ [10] =
        bytesOf "tree" ++ 32 :: (shaToHex t ++ [10]) := by simp
    rw [this]
    exact splitOnceSpace_append _ h32
  rw [hsplit]
  simp only [if_pos rfl]
  rw [trimBytes_append_newline (shaToHex_ne_nil ht) (hex_not_ws ht.2),
    hex_string_to_sha_roundtrip ht]
  simp

theorem fromLoop_parent_line {p : List Nat} (hp : ValidSha p) (B : List Nat)
    (tr : Option (List Nat)) (ps : List (List Nat)) :
    Commit.fromLoop (bytesOf "parent " ++ (shaToHex p ++ 10 :: B)) tr ps =
      Commit.fromLoop B tr (ps ++ [p]) := by
  have hstream : bytesOf "parent " ++ (shaToHex p ++ 10 :: B) =
      (bytesOf "parent" ++ 32 :: shaToHex p) ++ 10 :: B := by
    have : bytesOf "parent " = bytesOf "parent" ++ [32] := by decide
    simp [this]
  have hA10 : 10 ∉ bytesOf "parent" ++ 32 :: shaToHex p := by
    intro h
    rcases List.mem_append.mp h with h | h
    · revert h; decide
    · rcases List.mem_cons.mp h with h | h
      · omega
      · exact hex_not_newline hp.2 h
  have hAv : validUtf8 ((bytesOf "parent" ++ 32 :: shaToHex p) ++ [10]) = true := by
    apply validUtf8_of_ascii
    intro b hb
    rcases List.mem_append.mp hb with h | h
    · rcases List.mem_append.mp h with h | h
      · exact (by decide : ∀ x ∈ bytesOf "parent", x ≤ 127) b h
      · rcases List.mem_cons.mp h with h | h
        · omega
        · exact hex_ascii hp.2 b h
    · simp at h; omega
  rw [hstream, Commit.fromLoop.eq_def]
  rw [readLineBytes_append B hA10]
  simp only [hAv, if_true]
  have hsplit : splitOnceSpace ((bytesOf "parent" ++ 32 :: shaToHex p) ++ [10]) =
      some (bytesOf "parent", shaToHex p ++ [10]) := by
    have h32 : 32 ∉ bytesOf "parent" := by decide
    have : (bytesOf "parent" ++ 32 :: shaToHex p) ++ [10] =
        bytesOf "parent" ++ 32 :: (shaToHex p ++ [10]) := by simp
    rw [this]
    exact splitOnceSpace_append _ h32
  rw [hsplit]
  have hne : bytesOf "parent" ≠ bytesOf "tree" := by decide
  simp only [if_neg hne, if_pos rfl]
  rw [trimBytes_append_newline (shaToHex_ne_nil hp) (hex_not_ws hp.2),
    hex_string_to_sha_roundtrip hp]
  simp

/-- A header line whose first word is neither "tree" nor "parent" is read and
ignored. -/
theorem fromLoop_skip_line {P Q : List Nat} (B : List Nat)
    (tr : Option (List Nat)) (ps : List (List Nat))
    (hPa : ∀ b ∈ P, b ≤ 127) (hQa : ∀ b ∈ Q, b ≤ 127)
    (hP10 : 10 ∉ P) (hQ10 : 10 ∉ Q) (hP32 : 32 ∉ P)
    (hPt : P ≠ bytesOf "tree") (hPp : P ≠ bytesOf "parent") :
    Commit.fromLoop ((P ++ 32 :: Q) ++ 10 :: B) tr ps = Commit.fromLoop B tr ps := by
  have hA10 : 10 ∉ P ++ 32 :: Q := by
    intro h
    rcases List.mem_append.mp h with h | h
    · exact hP10 h
    · rcases List.mem_cons.mp h with h | h
      · omega
      · exact hQ10 h
  have hAv : validUtf8 ((P ++ 32 :: Q) ++ [10]) = true := by
    apply validUtf8_of_ascii
    intro b hb
    rcases List.mem_append.mp hb with h | h
    · rcases List.mem_append.mp h with h | h
      · exact hPa b h
      · rcases List.mem_cons.mp h with h | h
        · omega
        · exact hQa b h
    · simp at h; omega
  rw [Commit.fromLoop.eq_def]
  rw [readLineBytes_append B hA10]
  simp only [hAv, if_true]
  have hsplit : splitOnceSpace ((P ++ 32 :: Q) ++ [10]) = some (P, Q ++ [10]) := by
    have : (P ++ 32 :: Q) ++ [10] = P ++ 32 :: (Q ++ [10]) := by simp
    rw [this]
    exact splitOnceSpace_append _ hP32
  rw [hsplit]
  simp only [if_neg hPt, if_neg hPp]

/-- The blank line ends the loop; the rest of the stream becomes the message
(the code then checks it is valid UTF-8 and requires a tree line to have
been seen). -/
theorem fromLoop_blank_end {R : List Nat} (t : List Nat) (ps : List (List Nat))
    (hR : validUtf8 R = true) :
    Commit.fromLoop (10 :: R) (some t) ps = .ok ⟨t, ps, R⟩ := by
  rw [Commit.fromLoop.eq_def, readLineBytes_newline]
  have hnone : splitOnceSpace [10] = none := by decide
  have h10 : validUtf8 [10] = true := by decide
  rw [hnone]
  simp [hR, h10]

theorem fromLoop_parents_block :
    ∀ (ps : List (List Nat)) (B : List Nat) (tr : Option (List Nat)) (acc : List (List Nat)),
    (∀ p ∈ ps, ValidSha p) →
    Commit.fromLoop (parentLinesBytes ps ++ B) tr acc = Commit.fromLoop B tr (acc ++ ps) := by
  intro ps
  induction ps with
  | nil => intro B tr acc _; simp [parentLinesBytes]
  | cons p ps ih =>
    intro B tr acc hv
    have hp : ValidSha p := hv p (by simp)
    have hps : ∀ q ∈ ps, ValidSha q := fun q hq => hv q (by simp [hq])
    have hshape : parentLinesBytes (p :: ps) ++ B =
        bytesOf "parent " ++ (shaToHex p ++ 10 :: (parentLinesBytes ps ++ B)) := by
      simp [parentLinesBytes]
    rw [hshape, fromLoop_parent_line hp, ih _ _ _ hps]
    simp

theorem fromLoop_author_line (B : List Nat) (tr : Option (List Nat))
    (ps : List (List Nat)) :
    Commit.fromLoop (authorLineBytes ++ B) tr ps = Commit.fromLoop B tr ps := by
  have hdec : authorLineBytes =
      (bytesOf "author" ++ 32 :: bytesOf "Ruben Bakker <ruben@uncomplex.ch> 0 +0000") ++ [10] := by
    decide
  have hshape : authorLineBytes ++ B =
      (bytesOf "author" ++ 32 :: bytesOf "Ruben Bakker <ruben@uncomplex.ch> 0 +0000") ++
        10 :: B := by
    rw [hdec]; simp
  rw [hshape]
  exact fromLoop_skip_line B tr ps (by decide) (by decide) (by decide) (by decide)
    (by decide) (by decide) (by decide)

theorem fromLoop_committer_line (B : List Nat) (tr : Option (List Nat))
    (ps : List (List Nat)) :
    Commit.fromLoop (committerLineBytes ++ B) tr ps = Commit.fromLoop B tr ps := by
  have hdec : committerLineBytes =
      (bytesOf "committer" ++ 32 :: bytesOf "Ruben Bakker <ruben@uncomplex.ch> 0 +0000") ++
        [10] := by
    decide
  have hshape : committerLineBytes ++ B =
      (bytesOf "committer" ++ 32 :: bytesOf "Ruben Bakker <ruben@uncomplex.ch> 0 +0000") ++
        10 :: B := by
    rw [hdec]; simp
  rw [hshape]
  exact fromLoop_skip_line B tr ps (by decide) (by decide) (by decide) (by decide)
    (by decide) (by decide) (by decide)

/-- Round-trip of the commit codec: decoding the encoder's payload restores
the tree and the parents (in order) and returns the message with the
encoder's trailing newline attached. -/
theorem commit_encode_decode (c : Commit) (h1 : ValidSha c.tree)
    (h2 : ∀ p ∈ c.parents, ValidSha p) (h3 : validUtf8 c.message = true) :
    Commit.fromContent (Commit.encodePayload c) =
      .ok ⟨c.tree, c.parents, c.message ++ [10]⟩ := by
  unfold Commit.fromContent Commit.encodePayload
  rw [fromLoop_tree_line h1, fromLoop_parents_block _ _ _ _ h2,
    fromLoop_author_line, fromLoop_committer_line]
  rw [fromLoop_blank_end _ _ (validUtf8_append h3 (by decide))]
  simp

/-! ### Lemmas for tree-entry decoding -/

theorem readUntilByte_append_delim {d : Nat} {a : List Nat} (b : List Nat) (ha : d ∉ a) :
    readUntilByte d (a ++ d :: b) = (a ++ [d], b) := by
  induction a with
  | nil => simp [readUntilByte]
  | cons x rest ih =>
    have hx : x ≠ d := fun h => ha (by simp [h])
    have hrest : d ∉ rest := fun h => ha (by simp [h])
    simp [readUntilByte, hx, ih hrest]

theorem getLast_snoc (l : List Nat) (a : Nat) (h : l ++ [a] ≠ []) :
    (l ++ [a]).getLast h = a :=
  List.getLast_append_singleton l

/-- One step of the `Tree::from` loop for an entry `<mode> <name>\0<hash20>`:
the mode is accepted (per `hperm`), the name is everything before the null,
exactly twenty raw bytes are consumed as the binary hash, and the loop
continues on the remaining bytes with the entry appended. -/
theorem tree_fromLoop_entry_step {mode name hash : List Nat}
    (rest : List Nat) (acc : List TreeEntry) (perm : TreeEntryPermission)
    (hm32 : 32 ∉ mode) (hmv : validUtf8 (mode ++ [32]) = true)
    (hperm : permOfModeString (trimBytes (mode ++ [32])) = .ok perm)
    (hn0 : 0 ∉ name) (hnv : validUtf8 name = true) (hh : hash.length = 20) :
    Tree.fromLoop (mode ++ 32 :: (name ++ 0 :: (hash ++ rest))) acc =
      Tree.fromLoop rest (acc ++ [⟨perm, name, hash⟩]) := by
  rw [Tree.fromLoop.eq_def]
  rw [readUntilByte_append_delim (name ++ 0 :: (hash ++ rest)) hm32]
  have hne : mode ++ [32] ≠ [] := by simp
  rw [dif_neg (by simpa using hne)]
  simp only [hmv, if_true]
  rw [readUntilByte_append_delim (hash ++ rest) hn0]
  have hnv0 : validUtf8 (name ++ [0]) = true := validUtf8_append hnv (by decide)
  simp only [hnv0, if_true]
  have hne2 : name ++ [0] ≠ [] := by simp
  rw [dif_neg (by simpa using hne2)]
  rw [getLast_snoc name 0 hne2]
  have hcont : isContB 0 = false := by decide
  simp only [hcont, Bool.false_eq_true, if_false]
  rw [hperm]
  have hlen : ¬ (hash ++ rest).length < 20 := by
    simp [List.length_append, hh]
  have htake : (hash ++ rest).take 20 = hash := by
    rw [← hh]; exact List.take_left hash rest
  have hdrop : (hash ++ rest).drop 20 = rest := by
    rw [← hh]; exact List.drop_left hash rest
  have hdl : (name ++ [0]).dropLast = name := by simp
  simp only [if_neg hlen, htake, hdrop, hdl]

/-- The `Tree::from` loop stops cleanly at the end of the payload. -/
theorem tree_fromLoop_nil (acc : List TreeEntry) : Tree.fromLoop [] acc = .ok acc := by
  rw [Tree.fromLoop.eq_def]
  simp [readUntilByte]

/-! ### Claim theorems -/

/-- C7: Blob codec round-trip.  For every byte payload `p` (no UTF-8 or
other restriction), decoding the canonical encoding of `Blob p` — the
header `"blob <len>\0"` followed by `p` (compression modelled as the
identity round-trip) — yields a blob with exactly the content `p`. -/
theorem blob_roundtrip (p : List Nat) :
    GitObject.from_data (Blob.encodeFull ⟨p⟩) = .ok (.blob ⟨p⟩) := by
  have hshape : Blob.encodeFull ⟨p⟩ =
      bytesOf "blob" ++ ((32 :: decimalBytes p.length) ++ 0 :: p) := by
    simp [Blob.encodeFull, ObjectStorage.header_for_content_length]
  rw [hshape]
  apply from_data_blob_core
  intro b hb
  rcases List.mem_cons.mp hb with h | h
  · omega
  · have := decimalBytes_mem h
    omega

/-- C5 (amended): the decoder never parses or validates the declared
length.  Everything between the four-byte tag and the first null byte is
skipped, and all remaining bytes become the payload, whatever length the
header declared. -/
theorem from_data_length_ignored_amended (junk p : List Nat)
    (hj : ∀ b ∈ junk, b ≠ 0) :
    GitObject.from_data (bytesOf "blob" ++ (junk ++ 0 :: p)) = .ok (.blob ⟨p⟩) :=
  from_data_blob_core junk p hj

theorem from_data_length_ignored_amended_witness :
    (∀ b ∈ bytesOf " 7", b ≠ 0) ∧
    GitObject.from_data (bytesOf "blob" ++ (bytesOf " 7" ++ 0 :: bytesOf "xy")) =
      .ok (.blob ⟨bytesOf "xy"⟩) :=
  ⟨by decide, from_data_length_ignored_amended (bytesOf " 7") (bytesOf "xy") (by decide)⟩

/-- C5 (counterexample): an object whose header declares length 999 but
carries a 3-byte payload decodes successfully instead of failing with
`MalformedObject`. -/
theorem from_data_length_mismatch_counterexample :
    GitObject.from_data (bytesOf "blob 999" ++ 0 :: bytesOf "abc") =
      .ok (.blob ⟨bytesOf "abc"⟩) := by
  decide

/-- C4 (amended): decoding dispatches on the first four bytes of the
decompressed stream (not on the token up to the first space); whenever those
four bytes are not exactly "blob", "tree" or "comm", decoding fails. -/
theorem from_data_unknown_tag_errors_amended (d : List Nat)
    (h1 : d.take 4 ≠ bytesOf "blob") (h2 : d.take 4 ≠ bytesOf "tree")
    (h3 : d.take 4 ≠ bytesOf "comm") :
    ∃ e, GitObject.from_data d = .error e := by
  by_cases hlen : d.length < 4
  · exact ⟨.ioError, by simp [GitObject.from_data, hlen]⟩
  · by_cases hv : validUtf8 (d.take 4) = true
    · refine ⟨.unsupportedObjectType, ?_⟩
      simp [GitObject.from_data, hlen, hv, h1, h2, h3]
    · exact ⟨.utf8Error, by simp [GitObject.from_data, hlen, hv]⟩

theorem from_data_unknown_tag_errors_amended_witness :
    ((bytesOf "bogus 1" ++ [0]).take 4 ≠ bytesOf "blob") ∧
    ((bytesOf "bogus 1" ++ [0]).take 4 ≠ bytesOf "tree") ∧
    ((bytesOf "bogus 1" ++ [0]).take 4 ≠ bytesOf "comm") ∧
    (∃ e, GitObject.from_data (bytesOf "bogus 1" ++ [0]) = .error e) :=
  ⟨by decide, by decide, by decide,
    from_data_unknown_tag_errors_amended (bytesOf "bogus 1" ++ [0])
      (by decide) (by decide) (by decide)⟩

/-- C4 (counterexample): the header type token of this object, read up to
the first space, is "blobX" — not one of "blob"/"tree"/"commit" — yet
decoding succeeds (as a blob), because only the first four bytes are
inspected. -/
theorem from_data_four_byte_tag_counterexample :
    GitObject.from_data (bytesOf "blobX 3" ++ 0 :: bytesOf "abc") =
      .ok (.blob ⟨bytesOf "abc"⟩) := by
  decide

/-- C10: commit codec message round-trip gains a trailing newline: decoding
the encoded payload of any commit yields the same tree and the same parents
in order, and the message followed by `"\n"`.  The hypotheses are the Rust
type invariants (`Sha` is twenty bytes, `String` is valid UTF-8). -/
theorem commit_roundtrip_message_newline (c : Commit) (h1 : ValidSha c.tree)
    (h2 : ∀ p ∈ c.parents, ValidSha p) (h3 : validUtf8 c.message = true) :
    Commit.fromContent (Commit.encodePayload c) =
      .ok ⟨c.tree, c.parents, c.message ++ [10]⟩ :=
  commit_encode_decode c h1 h2 h3

theorem commit_roundtrip_message_newline_witness :
    Commit.fromContent (Commit.encodePayload
        ⟨List.replicate 20 0, [List.replicate 20 1, List.replicate 20 2], bytesOf "hello"⟩) =
      .ok ⟨List.replicate 20 0, [List.replicate 20 1, List.replicate 20 2],
        bytesOf "hello" ++ [10]⟩ :=
  commit_roundtrip_message_newline
    ⟨List.replicate 20 0, [List.replicate 20 1, List.replicate 20 2], bytesOf "hello"⟩
    (by decide) (by decide) (by decide)

/-- C1 (amended): `commit_tree` takes exactly one parent hash and builds the
`Commit` from precisely the given tree hash, that single parent and the
message; the encoded payload consists of the given tree line, exactly one
parent line for the given parent, and the hard-coded author and committer
lines (author "Ruben Bakker", email "ruben@uncomplex.ch", timestamp 0,
offset +0000) — no caller-supplied author or timestamp exists.  Decoding
the payload recovers the given tree and single parent. -/
theorem commit_tree_amended (t p m : List Nat) (h1 : ValidSha t) (h2 : ValidSha p)
    (h3 : validUtf8 m = true) :
    ObjectStorage.commit_tree t p m = ⟨t, [p], m⟩ ∧
    Commit.encodePayload (ObjectStorage.commit_tree t p m) =
      bytesOf "tree " ++ (shaToHex t ++ 10 :: (bytesOf "parent " ++ (shaToHex p ++
        10 :: (authorLineBytes ++ (committerLineBytes ++ 10 :: (m ++ [10])))))) ∧
    Commit.fromContent (Commit.encodePayload (ObjectStorage.commit_tree t p m)) =
      .ok ⟨t, [p], m ++ [10]⟩ := by
  refine ⟨rfl, ?_, ?_⟩
  · simp [Commit.encodePayload, parentLinesBytes, ObjectStorage.commit_tree]
  · exact commit_encode_decode ⟨t, [p], m⟩ h1 (by simpa using h2) h3

theorem commit_tree_amended_witness :
    ObjectStorage.commit_tree (List.replicate 20 0) (List.replicate 20 255) (bytesOf "hi") =
      ⟨List.replicate 20 0, [List.replicate 20 255], bytesOf "hi"⟩ ∧
    Commit.encodePayload
        (ObjectStorage.commit_tree (List.replicate 20 0) (List.replicate 20 255)
          (bytesOf "hi")) =
      bytesOf "tree " ++ (shaToHex (List.replicate 20 0) ++ 10 :: (bytesOf "parent " ++
        (shaToHex (List.replicate 20 255) ++ 10 :: (authorLineBytes ++
          (committerLineBytes ++ 10 :: (bytesOf "hi" ++ [10])))))) ∧
    Commit.fromContent (Commit.encodePayload
        (ObjectStorage.commit_tree (List.replicate 20 0) (List.replicate 20 255)
          (bytesOf "hi"))) =
      .ok ⟨List.replicate 20 0, [List.replicate 20 255], bytesOf "hi" ++ [10]⟩ :=
  commit_tree_amended (List.replicate 20 0) (List.replicate 20 255) (bytesOf "hi")
    (by decide) (by decide) (by decide)

/-- C1 (counterexample): commit construction has exactly one parent (a root
commit or a merge commit cannot be built), and its payload's author line is
the hard-coded "author Ruben Bakker <ruben@uncomplex.ch> 0 +0000" — it does
not render any caller-supplied author or timestamp: the payload differs from
the spec's rendering for author "Alice" <alice@example.com> at time 5. -/
theorem commit_tree_fixed_author_counterexample :
    (ObjectStorage.commit_tree (List.replicate 20 0) (List.replicate 20 255)
      (bytesOf "hi")).parents.length = 1 ∧
    Commit.encodePayload (ObjectStorage.commit_tree (List.replicate 20 0)
        (List.replicate 20 255) (bytesOf "hi")) ≠
      specCommitPayload (List.replicate 20 0) [List.replicate 20 255] (bytesOf "hi")
        (bytesOf "Alice") (bytesOf "alice@example.com") 5 0 ∧
    Commit.encodePayload (ObjectStorage.commit_tree (List.replicate 20 0)
        (List.replicate 20 255) (bytesOf "hi")) =
      bytesOf "tree 0000000000000000000000000000000000000000\nparent ffffffffffffffffffffffffffffffffffffffff\nauthor Ruben Bakker <ruben@uncomplex.ch> 0 +0000\ncommitter Ruben Bakker <ruben@uncomplex.ch> 0 +0000\n\nhi\n" := by
  refine ⟨by decide, by decide, by decide⟩

/-- C8 (amended): tree-entry decoding accepts exactly the four exact mode
strings "40000", "100644", "100755", "120000" (no zero-padded variants),
assigns the corresponding permission, and after the name's terminating null
reads exactly twenty raw bytes — arbitrary binary values, never hex text —
as the entry hash, continuing the loop right after them. -/
theorem tree_entry_decode_amended (name hash rest : List Nat) (acc : List TreeEntry)
    (hn0 : 0 ∉ name) (hnv : validUtf8 name = true) (hh : hash.length = 20) :
    (Tree.fromLoop (bytesOf "40000" ++ 32 :: (name ++ 0 :: (hash ++ rest))) acc =
      Tree.fromLoop rest (acc ++ [⟨.Directory, name, hash⟩])) ∧
    (Tree.fromLoop (bytesOf "100644" ++ 32 :: (name ++ 0 :: (hash ++ rest))) acc =
      Tree.fromLoop rest (acc ++ [⟨.RegularFile, name, hash⟩])) ∧
    (Tree.fromLoop (bytesOf "100755" ++ 32 :: (name ++ 0 :: (hash ++ rest))) acc =
      Tree.fromLoop rest (acc ++ [⟨.Executable, name, hash⟩])) ∧
    (Tree.fromLoop (bytesOf "120000" ++ 32 :: (name ++ 0 :: (hash ++ rest))) acc =
      Tree.fromLoop rest (acc ++ [⟨.SymbolicLink, name, hash⟩])) :=
  ⟨tree_fromLoop_entry_step rest acc .Directory (by decide) (by decide) (by decide)
      hn0 hnv hh,
   tree_fromLoop_entry_step rest acc .RegularFile (by decide) (by decide) (by decide)
      hn0 hnv hh,
   tree_fromLoop_entry_step rest acc .Executable (by decide) (by decide) (by decide)
      hn0 hnv hh,
   tree_fromLoop_entry_step rest acc .SymbolicLink (by decide) (by decide) (by decide)
      hn0 hnv hh⟩

theorem tree_entry_decode_amended_witness :
    ((0 : Nat) ∉ bytesOf "f") ∧ validUtf8 (bytesOf "f") = true ∧
    (List.replicate 20 7).length = 20 ∧
    Tree.fromLoop (bytesOf "40000" ++ 32 :: (bytesOf "f" ++ 0 ::
        (List.replicate 20 7 ++ []))) [] =
      Tree.fromLoop [] ([] ++ [⟨.Directory, bytesOf "f", List.replicate 20 7⟩]) :=
  ⟨by decide, by decide, by decide,
    (tree_entry_decode_amended (bytesOf "f") (List.replicate 20 7) [] []
      (by decide) (by decide) (by decide)).1⟩

/-- C8 (counterexample): a zero-padded known mode string is NOT tolerated:
the entry `"040000 d\0"` followed by twenty hash bytes fails with the
unsupported-permission error instead of being accepted as a Directory
entry. -/
theorem tree_mode_zero_pad_counterexample :
    Tree.fromContent (bytesOf "040000 d" ++ 0 :: List.replicate 20 7) =
      .error .unsupportedPermission := by
  simp only [Tree.fromContent]
  rw [Tree.fromLoop.eq_def]
  decide

/-! ### Lemmas for the tree builder -/

theorem mem_insertByName {a e : TreeEntry} :
    ∀ l : List TreeEntry, a ∈ insertByName e l ↔ a = e ∨ a ∈ l := by
  intro l
  induction l with
  | nil => simp [insertByName]
  | cons x xs ih =>
    by_cases h : nameLeB e.name x.name
    · simp [insertByName, h]
    · simp [insertByName, h, ih]
      tauto

theorem mem_sortByName {a : TreeEntry} :
    ∀ l : List TreeEntry, a ∈ sortByName l ↔ a ∈ l := by
  intro l
  induction l with
  | nil => simp [sortByName]
  | cons x xs ih => simp [sortByName, mem_insertByName, ih]

/-- Invariant of the `write_tree` child loop: every collected entry has
Directory or RegularFile mode, whatever the recursive call returns. -/
theorem writeTreeChild_fold_perms (H : List Nat → List Nat)
    (recurse : FsNode → Except GitError (List TreeEntry × List Nat × List (List Nat))) :
    ∀ (children : List (List Nat × FsNode)) (acc res : List TreeEntry × List (List Nat)),
    children.foldlM (ObjectStorage.writeTreeChild H recurse) acc = .ok res →
    (∀ e ∈ acc.1, e.permission = .Directory ∨ e.permission = .RegularFile) →
    ∀ e ∈ res.1, e.permission = .Directory ∨ e.permission = .RegularFile := by
  intro children
  induction children with
  | nil =>
    intro acc res h hacc
    have h' : (Except.ok acc : Except GitError (List TreeEntry × List (List Nat))) =
        .ok res := h
    cases h'
    exact hacc
  | cons c cs ih =>
    intro acc res h hacc
    rw [List.foldlM_cons] at h
    cases hc : ObjectStorage.writeTreeChild H recurse acc c with
    | error e =>
      rw [hc] at h
      have h' : (Except.error e : Except GitError (List TreeEntry × List (List Nat))) =
          .ok res := h
      cases h'
    | ok acc2 =>
      rw [hc] at h
      have h2 : cs.foldlM (ObjectStorage.writeTreeChild H recurse) acc2 = .ok res := h
      refine ih acc2 res h2 ?_
      intro e he
      simp only [ObjectStorage.writeTreeChild] at hc
      by_cases hg : c.1 = bytesOf ".git"
      · rw [if_pos hg] at hc
        cases hc
        exact hacc e he
      · rw [if_neg hg] at hc
        split at hc
        · split at hc
          · cases hc
          · cases hc
            rcases List.mem_append.mp he with h | h
            · exact hacc e h
            · simp at h; subst h; left; rfl
        · cases hc
          rcases List.mem_append.mp he with h | h
          · exact hacc e h
          · simp at h; subst h; right; rfl
        · cases hc
        · cases hc
          rcases List.mem_append.mp he with h | h
          · exact hacc e h
          · simp at h; subst h; right; rfl

/-- C3 (amended): every entry recorded by `write_tree` has Directory mode
(for a directory child) or RegularFile mode (for every other child): the
executable permission bit is never inspected and no Executable or
SymbolicLink entry is ever produced; a symlink child is recorded as a
RegularFile whose blob is the resolved target content, not the link text. -/
theorem write_tree_modes_amended (H : List Nat → List Nat) (fuel : Nat) (node : FsNode)
    (entries : List TreeEntry) (h : List Nat) (ws : List (List Nat))
    (hok : ObjectStorage.write_tree H fuel node = .ok (entries, h, ws)) :
    ∀ e ∈ entries, e.permission = .Directory ∨ e.permission = .RegularFile := by
  cases fuel with
  | zero => simp [ObjectStorage.write_tree] at hok
  | succ fuel =>
    cases node with
    | file ex content => simp [ObjectStorage.write_tree] at hok
    | symlink tgt resolved => simp [ObjectStorage.write_tree] at hok
    | dir children =>
      simp only [ObjectStorage.write_tree] at hok
      cases hd : (children.foldlM
          (ObjectStorage.writeTreeChild H (fun n => ObjectStorage.write_tree H fuel n))
          ([], []) :
          Except GitError (List TreeEntry × List (List Nat))) with
      | error e => rw [hd] at hok; cases hok
      | ok pair =>
        rw [hd] at hok
        obtain ⟨es, ws'⟩ := pair
        cases hok
        intro e he
        have hmem : e ∈ es := (mem_sortByName es).mp he
        exact writeTreeChild_fold_perms H _ children ([], []) (es, ws') hd
          (by intro x hx; simp at hx) e hmem

theorem write_tree_modes_amended_witness :
    (⟨.RegularFile, bytesOf "b", List.replicate 20 0⟩ : TreeEntry).permission =
        .Directory ∨
    (⟨.RegularFile, bytesOf "b", List.replicate 20 0⟩ : TreeEntry).permission =
        .RegularFile :=
  write_tree_modes_amended (fun _ => List.replicate 20 0) 1
    (.dir [(bytesOf "b", .file true (bytesOf "z"))])
    [⟨.RegularFile, bytesOf "b", List.replicate 20 0⟩]
    (List.replicate 20 0)
    [Blob.encodeFull ⟨bytesOf "z"⟩,
      Tree.encodeFull ⟨[⟨.RegularFile, bytesOf "b", List.replicate 20 0⟩]⟩]
    (by decide)
    ⟨.RegularFile, bytesOf "b", List.replicate 20 0⟩ (by decide)

/-- C3 (counterexample): a symlink child is recorded with RegularFile mode
(not SymbolicLink) and the stored blob is the resolved target content
"hello", not the link target text "tgt"; an executable file child is also
recorded with RegularFile mode (not Executable). -/
theorem write_tree_modes_counterexample :
    ObjectStorage.write_tree (fun _ => List.replicate 20 0) 1
        (.dir [(bytesOf "a", .symlink (bytesOf "tgt") (some (bytesOf "hello")))]) =
      .ok ([⟨.RegularFile, bytesOf "a", List.replicate 20 0⟩],
        List.replicate 20 0,
        [Blob.encodeFull ⟨bytesOf "hello"⟩,
          Tree.encodeFull ⟨[⟨.RegularFile, bytesOf "a", List.replicate 20 0⟩]⟩]) ∧
    Blob.encodeFull ⟨bytesOf "hello"⟩ ≠ Blob.encodeFull ⟨bytesOf "tgt"⟩ ∧
    ObjectStorage.write_tree (fun _ => List.replicate 20 0) 1
        (.dir [(bytesOf "x", .file true (bytesOf "z"))]) =
      .ok ([⟨.RegularFile, bytesOf "x", List.replicate 20 0⟩],
        List.replicate 20 0,
        [Blob.encodeFull ⟨bytesOf "z"⟩,
          Tree.encodeFull ⟨[⟨.RegularFile, bytesOf "x", List.replicate 20 0⟩]⟩]) := by
  refine ⟨by decide, by decide, by decide⟩

/-- C6 (amended): when a hash in a Tree/Blob-expected position resolves to a
Commit object, `checkout_sha` silently succeeds, performing no filesystem
action for that object, instead of failing with `UnexpectedObjectKind`. -/
theorem checkout_commit_ok_amended (store : List Nat → Except GitError GitObject)
    (fuel : Nat) (path : List (List Nat)) (sha : List Nat) (c : Commit)
    (h : store sha = .ok (.commit c)) :
    ObjectStorage.checkout_sha store (fuel + 1) path sha = .ok [] := by
  simp [ObjectStorage.checkout_sha, h]

theorem checkout_commit_ok_amended_witness :
    storeDirToCommit (List.replicate 20 3) =
      .ok (.commit ⟨List.replicate 20 9, [], []⟩) ∧
    ObjectStorage.checkout_sha storeDirToCommit 1 [] (List.replicate 20 3) = .ok [] :=
  ⟨by decide,
    checkout_commit_ok_amended storeDirToCommit 0 [] (List.replicate 20 3)
      ⟨List.replicate 20 9, [], []⟩ (by decide)⟩

/-- C6 (counterexample): a Directory tree entry whose hash resolves to a
Commit object — exactly the claim's example — does not make checkout fail
with `UnexpectedObjectKind`: the whole checkout succeeds, creating the
subdirectory and then silently doing nothing for the commit object. -/
theorem checkout_commit_silent_success_counterexample :
    ObjectStorage.checkout_sha storeDirToCommit 3 [] (List.replicate 20 2) =
      .ok [.mkdir [bytesOf "d"]] := by
  decide

/-- C2: the checkout of a tree containing an Executable entry, and likewise
one containing a SymbolicLink entry, aborts with a panic — the source has
`todo!()` in both match arms — instead of materializing the file with the
executable bit or creating a symbolic link. -/
theorem checkout_special_modes_panic :
    ObjectStorage.checkout_sha storeSpecialModes 2 [] (List.replicate 20 2) =
      .error .panicked ∧
    ObjectStorage.checkout_sha storeSpecialModes 2 [] (List.replicate 20 4) =
      .error .panicked := by
  refine ⟨by decide, by decide⟩

/-- C9: `init` creates the `.git` root directory, the `objects` and `refs`
subdirectories, and writes `HEAD` containing exactly
`"ref: refs/heads/main\n"`; when the root directory already exists it fails
with the already-exists error and leaves the filesystem state untouched.
The two hypotheses are filesystem sanity conditions (a subdirectory of
`.git` cannot exist unless `.git` does). -/
theorem init_cwd_spec (s : FsState)
    (hobj : bytesOf ".git/objects" ∈ s.dirs → bytesOf ".git" ∈ s.dirs)
    (hrefs : bytesOf ".git/refs" ∈ s.dirs → bytesOf ".git" ∈ s.dirs) :
    ObjectStorage.init_cwd s =
      if bytesOf ".git" ∈ s.dirs then (.error .alreadyExists, s)
      else (.ok (), ⟨s.dirs ++
          [bytesOf ".git", bytesOf ".git/objects", bytesOf ".git/refs"],
        setFile s.files (bytesOf ".git/HEAD") (bytesOf "ref: refs/heads/main\n")⟩) := by
  by_cases hg : bytesOf ".git" ∈ s.dirs
  · simp [ObjectStorage.init_cwd, FsState.createDir, hg]
  · have h2 : bytesOf ".git/objects" ∉ s.dirs := fun h => hg (hobj h)
    have h3 : bytesOf ".git/refs" ∉ s.dirs := fun h => hg (hrefs h)
    have hne1 : bytesOf ".git/objects" ∉ s.dirs ++ [bytesOf ".git"] := by
      intro h
      rcases List.mem_append.mp h with h | h
      · exact h2 h
      · simp at h
        exact absurd h (by decide)
    have hne2 : bytesOf ".git/refs" ∉
        (s.dirs ++ [bytesOf ".git"]) ++ [bytesOf ".git/objects"] := by
      intro h
      rcases List.mem_append.mp h with h | h
      · rcases List.mem_append.mp h with h | h
        · exact h3 h
        · simp at h
          exact absurd h (by decide)
      · simp at h
        exact absurd h (by decide)
    simp only [ObjectStorage.init_cwd, FsState.createDir, if_pos hg, if_neg hg,
      if_neg hne1, if_neg hne2, FsState.writeF, if_neg hg]
    simp

theorem init_cwd_spec_witness :
    (ObjectStorage.init_cwd ⟨[bytesOf ".git"], []⟩ =
      (.error .alreadyExists, ⟨[bytesOf ".git"], []⟩)) ∧
    (ObjectStorage.init_cwd ⟨[], []⟩ =
      (.ok (), ⟨[bytesOf ".git", bytesOf ".git/objects", bytesOf ".git/refs"],
        [(bytesOf ".git/HEAD", bytesOf "ref: refs/heads/main\n")]⟩)) := by
  constructor
  · rw [init_cwd_spec ⟨[bytesOf ".git"], []⟩ (by intro h; decide) (by intro h; decide)]
    simp
  · rw [init_cwd_spec ⟨[], []⟩ (by intro h; simp at h) (by intro h; simp at h)]
    simp [setFile]

end Git
